import Mathlib

/-!
Verification development for the replicated-log / revision-tree core of the
arangodb excerpt.  Pure functions of the C++ sources are embedded as Lean
definitions; machine integers are `Nat` reduced modulo `2 ^ 64` where the
source relies on 64-bit wraparound.
-/

namespace ArangoVerify

/-! ## Revision tree

Modelled from the spec: the implementation of `containers::RevisionTree` and
`RocksDBMetaCollection::RevisionTreeAccessor` is not part of the sources
(only the accessor's declaration appears in the `RocksDBMetaCollection`
header).  Following the spec, the tree is a fixed-depth accumulator: each
revision id hashes into one of the leaf buckets, a leaf holds a 64-bit
count and a 64-bit hash aggregate, and aggregates combine by addition
modulo `2 ^ 64` — a commutative, invertible operation, so insert and remove
of the same id cancel exactly.  `count` and `rootValue` are the sums of the
leaf aggregates. -/

/-- 64-bit modulus used by all tree aggregates. -/
def word : Nat := 2 ^ 64

/-- Hash of a revision id, a fasthash-style 64-bit mix. -/
def hashMix (r : Nat) : Nat :=
  let m1 := (r * 0x880355f21e6d1965) % word
  let m2 := (Nat.xor m1 (m1 / 2 ^ 23) * 0x2127599bf4325c37) % word
  Nat.xor m2 (m2 / 2 ^ 47) % word

/-- Fixed depth of every revision tree (`revisionTreeDepth` in the header). -/
def revisionTreeDepth : Nat := 6

/-- Branching factor of the fixed-depth tree. -/
def branchingFactor : Nat := 8

/-- Number of leaf buckets of a depth-6 tree. -/
def nLeafBuckets : Nat := branchingFactor ^ revisionTreeDepth

/-- Leaf bucket a revision id falls into. -/
def bucketOf (r : Nat) : Nat := hashMix r % nLeafBuckets

/-- A revision tree: sparse list of leaf buckets, each entry being
`(bucket, count, hash)` with the aggregates kept below `2 ^ 64`.
Untouched buckets (absent from the list) hold the neutral aggregate. -/
structure RevisionTree where
  leaves : List (Nat × Nat × Nat)
deriving Repr, DecidableEq

/-- The empty revision tree. -/
def RevisionTree.empty : RevisionTree := ⟨[]⟩

/-- Add `(dc, dh)` (mod `2 ^ 64`) to the aggregate of bucket `b`. -/
def addLeaf (b dc dh : Nat) : List (Nat × Nat × Nat) → List (Nat × Nat × Nat)
  | [] => [(b, dc % word, dh % word)]
  | (k, c, h) :: rest =>
    if k = b then (k, (c + dc) % word, (h + dh) % word) :: rest
    else (k, c, h) :: addLeaf b dc dh rest

/-- Additive inverse modulo `2 ^ 64`. -/
def negWord (x : Nat) : Nat := (word - x % word) % word

/-- Insert one revision id: bump the count of its bucket and add its hash. -/
def RevisionTree.insertOne (t : RevisionTree) (r : Nat) : RevisionTree :=
  ⟨addLeaf (bucketOf r) 1 (hashMix r % word) t.leaves⟩

/-- Remove one revision id: the inverse of `insertOne` on the aggregates. -/
def RevisionTree.removeOne (t : RevisionTree) (r : Nat) : RevisionTree :=
  ⟨addLeaf (bucketOf r) (word - 1) (negWord (hashMix r)) t.leaves⟩

/-- `RevisionTreeAccessor::insert`: insert a batch of revision ids. -/
def RevisionTree.insertList (t : RevisionTree) (rs : List Nat) : RevisionTree :=
  rs.foldl RevisionTree.insertOne t

/-- `RevisionTreeAccessor::remove`: remove a batch of revision ids. -/
def RevisionTree.removeList (t : RevisionTree) (rs : List Nat) : RevisionTree :=
  rs.foldl RevisionTree.removeOne t

/-- `RevisionTreeAccessor::clear`: reset the tree to empty. -/
def RevisionTree.clear (_t : RevisionTree) : RevisionTree := RevisionTree.empty

/-- Sum of the leaf counts, modulo `2 ^ 64`. -/
def sumCounts : List (Nat × Nat × Nat) → Nat
  | [] => 0
  | (_, c, _) :: rest => (c + sumCounts rest) % word

/-- Sum of the leaf hashes, modulo `2 ^ 64`. -/
def sumHashes : List (Nat × Nat × Nat) → Nat
  | [] => 0
  | (_, _, h) :: rest => (h + sumHashes rest) % word

/-- `RevisionTreeAccessor::count`: total number of tracked revisions. -/
def RevisionTree.count (t : RevisionTree) : Nat := sumCounts t.leaves

/-- `RevisionTreeAccessor::rootValue`: the root summary hash. -/
def RevisionTree.rootValue (t : RevisionTree) : Nat := sumHashes t.leaves

lemma word_pos : 0 < word := by decide

lemma sumCounts_lt (l : List (Nat × Nat × Nat)) : sumCounts l < word := by
  cases l with
  | nil => exact word_pos
  | cons e rest =>
    obtain ⟨k, c, h⟩ := e
    exact Nat.mod_lt _ word_pos

lemma sumHashes_lt (l : List (Nat × Nat × Nat)) : sumHashes l < word := by
  cases l with
  | nil => exact word_pos
  | cons e rest =>
    obtain ⟨k, c, h⟩ := e
    exact Nat.mod_lt _ word_pos

lemma sumCounts_addLeaf (b dc dh : Nat) (l : List (Nat × Nat × Nat)) :
    sumCounts (addLeaf b dc dh l) = (sumCounts l + dc) % word := by
  induction l with
  | nil =>
    simp only [addLeaf, sumCounts]
    rw [Nat.add_zero, Nat.zero_add, Nat.mod_mod_of_dvd dc dvd_rfl]
  | cons e rest ih =>
    obtain ⟨k, c, h⟩ := e
    by_cases hk : k = b
    · simp only [addLeaf, if_pos hk, sumCounts]
      rw [Nat.mod_add_mod, Nat.mod_add_mod, Nat.add_right_comm]
    · simp only [addLeaf, if_neg hk, sumCounts, ih]
      rw [Nat.add_mod_mod, Nat.mod_add_mod, Nat.add_assoc]

lemma sumHashes_addLeaf (b dc dh : Nat) (l : List (Nat × Nat × Nat)) :
    sumHashes (addLeaf b dc dh l) = (sumHashes l + dh) % word := by
  induction l with
  | nil =>
    simp only [addLeaf, sumHashes]
    rw [Nat.add_zero, Nat.zero_add, Nat.mod_mod_of_dvd dh dvd_rfl]
  | cons e rest ih =>
    obtain ⟨k, c, h⟩ := e
    by_cases hk : k = b
    · simp only [addLeaf, if_pos hk, sumHashes]
      rw [Nat.mod_add_mod, Nat.mod_add_mod, Nat.add_right_comm]
    · simp only [addLeaf, if_neg hk, sumHashes, ih]
      rw [Nat.add_mod_mod, Nat.mod_add_mod, Nat.add_assoc]

lemma count_insertOne (t : RevisionTree) (r : Nat) :
    (t.insertOne r).count = (t.count + 1) % word := by
  simp [RevisionTree.insertOne, RevisionTree.count, sumCounts_addLeaf]

lemma count_removeOne (t : RevisionTree) (r : Nat) :
    (t.removeOne r).count = (t.count + (word - 1)) % word := by
  simp [RevisionTree.removeOne, RevisionTree.count, sumCounts_addLeaf]

lemma rootValue_insertOne (t : RevisionTree) (r : Nat) :
    (t.insertOne r).rootValue = (t.rootValue + hashMix r % word) % word := by
  simp [RevisionTree.insertOne, RevisionTree.rootValue, sumHashes_addLeaf]

lemma rootValue_removeOne (t : RevisionTree) (r : Nat) :
    (t.removeOne r).rootValue = (t.rootValue + negWord (hashMix r)) % word := by
  simp [RevisionTree.removeOne, RevisionTree.rootValue, sumHashes_addLeaf]

lemma word_eq_literal : word = 18446744073709551616 := by decide

lemma negWord_add_cancel (x : Nat) : (x % word + negWord x) % word = 0 := by
  unfold negWord
  simp only [word_eq_literal]
  omega

lemma mod_add_add_comm (a x y : Nat) :
    ((a + x) % word + y) % word = ((a + y) % word + x) % word := by
  rw [Nat.mod_add_mod, Nat.mod_add_mod, Nat.add_right_comm]

/-! ### Binary serialization of a revision tree

Modelled from the spec: `RevisionTreeAccessor::serializeBinary` (only
declared in the header) writes the tree to a flat byte format consumed for
peer comparison and persistence; the format must round-trip through
`rootValue()`/`count()` equality.  The model flattens the depth, the number
of populated buckets and then each bucket's `(bucket, count, hash)` triple
into a flat word sequence, and the deserializer parses that back. -/

/-- Flatten the leaf list into the wire word sequence. -/
def serializeLeaves : List (Nat × Nat × Nat) → List Nat
  | [] => []
  | (b, c, h) :: rest => b :: c :: h :: serializeLeaves rest

/-- `RevisionTreeAccessor::serializeBinary`, modelled from the spec. -/
def RevisionTree.serializeBinary (t : RevisionTree) : List Nat :=
  revisionTreeDepth :: t.leaves.length :: serializeLeaves t.leaves

/-- Parse `n` leaf triples back from the wire word sequence. -/
def deserializeLeaves : Nat → List Nat → Option (List (Nat × Nat × Nat))
  | 0, [] => some []
  | 0, _ :: _ => none
  | n + 1, b :: c :: h :: rest => (deserializeLeaves n rest).map (fun l => (b, c, h) :: l)
  | _ + 1, [] => none
  | _ + 1, [_] => none
  | _ + 1, [_, _] => none

/-- Deserializer for the wire format of `serializeBinary`. -/
def RevisionTree.deserializeBinary : List Nat → Option RevisionTree
  | d :: n :: rest =>
    if d = revisionTreeDepth then (deserializeLeaves n rest).map RevisionTree.mk
    else none
  | _ => none

lemma deserializeLeaves_serializeLeaves (l : List (Nat × Nat × Nat)) :
    deserializeLeaves l.length (serializeLeaves l) = some l := by
  induction l with
  | nil => rfl
  | cons e rest ih =>
    obtain ⟨b, c, h⟩ := e
    simp [serializeLeaves, deserializeLeaves, ih]

/-- `C3`: starting from the empty revision tree, `insert([r])` followed by
`remove([r])` of the same revision id restores the aggregate state exactly:
`count()` is `0` and `rootValue()` equals the empty tree's root value; and
the insert/remove aggregation is order-independent (commutative), so the
cancellation is insensitive to the interleaving of batch application. -/
theorem revisionTree_insert_remove_cancels (r r1 r2 : Nat) (t : RevisionTree) :
    ((RevisionTree.empty.insertList [r]).removeList [r]).count = 0 ∧
    ((RevisionTree.empty.insertList [r]).removeList [r]).rootValue =
      RevisionTree.empty.rootValue ∧
    ((t.insertOne r1).removeOne r2).count = ((t.removeOne r2).insertOne r1).count ∧
    ((t.insertOne r1).removeOne r2).rootValue =
      ((t.removeOne r2).insertOne r1).rootValue := by
  refine ⟨?_, ?_, ?_, ?_⟩
  · simp only [RevisionTree.insertList, RevisionTree.removeList, List.foldl]
    rw [count_removeOne, count_insertOne]
    simp only [word_eq_literal, RevisionTree.empty, RevisionTree.count, sumCounts]
  · simp only [RevisionTree.insertList, RevisionTree.removeList, List.foldl]
    rw [rootValue_removeOne, rootValue_insertOne]
    simp only [negWord, word_eq_literal, RevisionTree.empty, RevisionTree.rootValue, sumHashes]
    omega
  · rw [count_removeOne, count_insertOne, count_insertOne, count_removeOne,
      mod_add_add_comm]
  · rw [rootValue_removeOne, rootValue_insertOne, rootValue_insertOne,
      rootValue_removeOne, mod_add_add_comm]

/-- `C4` counterexample: inserting revision id `42` twice into the empty tree
and then removing it once does not restore the never-inserted aggregate
state — the tree still counts one live insertion. -/
theorem revisionTree_double_insert_single_remove_not_cancelled :
    ¬ ((((RevisionTree.empty.insertList [42]).insertList [42]).removeList [42]).count =
          RevisionTree.empty.count ∧
        (((RevisionTree.empty.insertList [42]).insertList [42]).removeList [42]).rootValue =
          RevisionTree.empty.rootValue) := by
  decide

/-- `C4` (amended): for every revision tree and revision id, inserting the id
twice and then removing it twice leaves the aggregate state (`count()` and
`rootValue()`) identical to the state in which the id was never inserted. -/
theorem revisionTree_double_insert_double_remove_cancels (t : RevisionTree) (r : Nat) :
    ((((t.insertList [r]).insertList [r]).removeList [r]).removeList [r]).count = t.count ∧
    ((((t.insertList [r]).insertList [r]).removeList [r]).removeList [r]).rootValue =
      t.rootValue := by
  have hc : t.count < word := sumCounts_lt t.leaves
  have hv : t.rootValue < word := sumHashes_lt t.leaves
  rw [word_eq_literal] at hc hv
  constructor
  · simp only [RevisionTree.insertList, RevisionTree.removeList, List.foldl]
    rw [count_removeOne, count_removeOne, count_insertOne, count_insertOne]
    simp only [word_eq_literal]
    omega
  · simp only [RevisionTree.insertList, RevisionTree.removeList, List.foldl]
    rw [rootValue_removeOne, rootValue_removeOne, rootValue_insertOne, rootValue_insertOne]
    simp only [negWord, word_eq_literal]
    omega

/-- `C5`: serializing a revision tree with `serializeBinary` and then
deserializing the produced output yields a tree whose `rootValue()` and
`count()` equal those of the original tree. -/
theorem revisionTree_serialize_roundtrip (t : RevisionTree) :
    ∃ t', RevisionTree.deserializeBinary t.serializeBinary = some t' ∧
      t'.rootValue = t.rootValue ∧ t'.count = t.count := by
  refine ⟨t, ?_, rfl, rfl⟩
  simp [RevisionTree.serializeBinary, RevisionTree.deserializeBinary,
    deserializeLeaves_serializeLeaves]

/-! ## MockLog (src/tests/Replication2/MockLog.cpp)

`MockLog` implements the `PersistedLog` contract over a
`std::map<LogIndex, LogEntry>`; it is embedded as an association list
sorted strictly by key.  `read` constructs a `ContainerIterator` that
receives the map **by value** (the constructor parameter
`MockLog::storeType store` is a copy moved into the member `_store`), so a
handed-out iterator owns its own snapshot of the storage;
`removeFront`/`removeBack` erase key ranges from `_storage` only and both
return a default-constructed (successful) `Result`. -/

/-- Payload of a log entry (`LogPayload::dummy`). -/
structure LogPayload where
  dummy : String
deriving Repr, DecidableEq

/-- A log entry: term, index and opaque payload. -/
structure LogEntry where
  logTerm : Nat
  logIndex : Nat
  logPayload : LogPayload
deriving Repr, DecidableEq

/-- `arangodb::Result`; `errorNumber = 0` is success (`Result{}`). -/
structure Result where
  errorNumber : Nat
deriving Repr, DecidableEq

/-- Whether a `Result` denotes success. -/
def Result.ok (r : Result) : Bool := r.errorNumber == 0

/-- `MockLog::storeType`: the `std::map<LogIndex, LogEntry>`, embedded as an
association list in strictly increasing key order. -/
abbrev LogStore := List (Nat × LogEntry)

/-- The map invariant: keys strictly increase along the list. -/
def storeSorted (l : LogStore) : Prop := l.Pairwise (fun a b => a.1 < b.1)

/-- The persisted mock log. -/
structure MockLog where
  storage : LogStore
deriving Repr, DecidableEq

/-- `ContainerIterator`: holds its own copy of the store (`_store`) and the
remaining suffix to yield (`_current` up to `_end`). -/
structure ContainerIterator where
  store : LogStore
  current : LogStore
deriving Repr, DecidableEq

/-- `MockLog::read(start)`: builds an iterator over a by-value copy of the
current storage, positioned at `lower_bound(start)`. -/
def MockLog.read (log : MockLog) (start : Nat) : ContainerIterator :=
  { store := log.storage
    current := log.storage.dropWhile (fun e => decide (e.1 < start)) }

/-- `ContainerIterator::next()`: yield the current entry and advance, or
report exhaustion. -/
def ContainerIterator.next (it : ContainerIterator) :
    Option LogEntry × ContainerIterator :=
  match it.current with
  | [] => (none, it)
  | e :: rest => (some e.2, { it with current := rest })

/-- The whole sequence of entries the iterator will yield. -/
def ContainerIterator.yieldAll (it : ContainerIterator) : List LogEntry :=
  it.current.map (fun e => e.2)

/-- `MockLog::removeFront(stop)`: erase `[begin, lower_bound(stop))` from the
storage, i.e. all entries with key `< stop`; returns `Result{}`. -/
def MockLog.removeFront (log : MockLog) (stop : Nat) : MockLog × Result :=
  (⟨log.storage.dropWhile (fun e => decide (e.1 < stop))⟩, ⟨0⟩)

/-- `MockLog::removeBack(start)`: erase `[lower_bound(start), end)` from the
storage, i.e. all entries with key `≥ start`; returns `Result{}`. -/
def MockLog.removeBack (log : MockLog) (start : Nat) : MockLog × Result :=
  (⟨log.storage.takeWhile (fun e => decide (e.1 < start))⟩, ⟨0⟩)

/-- `MockLog::drop()`: clear the storage. -/
def MockLog.drop (_log : MockLog) : MockLog × Result := (⟨[]⟩, ⟨0⟩)

lemma dropWhile_lt_eq_filter (stop : Nat) (l : LogStore) (h : storeSorted l) :
    l.dropWhile (fun e => decide (e.1 < stop)) =
      l.filter (fun e => decide (stop ≤ e.1)) := by
  induction l with
  | nil => rfl
  | cons e rest ih =>
    rw [storeSorted, List.pairwise_cons] at h
    by_cases he : e.1 < stop
    · rw [List.dropWhile_cons_of_pos (by simpa using he),
        List.filter_cons_of_neg (by simpa using Nat.not_le.mpr he)]
      exact ih h.2
    · rw [List.dropWhile_cons_of_neg (by simpa using he),
        List.filter_cons_of_pos (by simpa using Nat.not_lt.mp he)]
      have hall : ∀ x ∈ rest, (fun e : Nat × LogEntry => decide (stop ≤ e.1)) x = true := by
        intro x hx
        have := h.1 x hx
        simp only [decide_eq_true_eq]
        omega
      rw [List.filter_eq_self.mpr hall]

lemma takeWhile_lt_eq_filter (start : Nat) (l : LogStore) (h : storeSorted l) :
    l.takeWhile (fun e => decide (e.1 < start)) =
      l.filter (fun e => decide (e.1 < start)) := by
  induction l with
  | nil => rfl
  | cons e rest ih =>
    rw [storeSorted, List.pairwise_cons] at h
    by_cases he : e.1 < start
    · rw [List.takeWhile_cons_of_pos (by simpa using he),
        List.filter_cons_of_pos (by simpa using he)]
      rw [ih h.2]
    · rw [List.takeWhile_cons_of_neg (by simpa using he),
        List.filter_cons_of_neg (by simpa using he)]
      have hnone : ∀ x ∈ rest, ¬ ((fun e : Nat × LogEntry => decide (e.1 < start)) x = true) := by
        intro x hx
        have h1 := h.1 x hx
        simp only [decide_eq_true_eq]
        omega
      rw [List.filter_eq_nil_iff.mpr hnone]

/-- `C10`: on a `MockLog` whose storage satisfies the `std::map` invariant
(strictly increasing keys), `removeFront i` removes exactly the entries with
index `< i` (the entry at `i` itself is retained), `removeBack i` removes
exactly the entries with index `≥ i` (the entry at `i` itself is removed),
and both calls return a success `Result`. -/
theorem mockLog_remove_semantics (log : MockLog) (i : Nat)
    (h : storeSorted log.storage) :
    (log.removeFront i).1.storage = log.storage.filter (fun e => decide (i ≤ e.1)) ∧
    ((log.removeFront i).2).ok = true ∧
    (log.removeBack i).1.storage = log.storage.filter (fun e => decide (e.1 < i)) ∧
    ((log.removeBack i).2).ok = true := by
  refine ⟨?_, rfl, ?_, rfl⟩
  · exact dropWhile_lt_eq_filter i log.storage h
  · exact takeWhile_lt_eq_filter i log.storage h

/-- `C10` witness: concrete three-entry log, trim boundary at index `2`. -/
theorem mockLog_remove_semantics_witness :
    ((MockLog.mk [(1, ⟨1, 1, ⟨"a"⟩⟩), (2, ⟨1, 2, ⟨"b"⟩⟩), (3, ⟨1, 3, ⟨"c"⟩⟩)]).removeFront 2).1.storage =
      [(2, ⟨1, 2, ⟨"b"⟩⟩), (3, ⟨1, 3, ⟨"c"⟩⟩)] ∧
    ((MockLog.mk [(1, ⟨1, 1, ⟨"a"⟩⟩), (2, ⟨1, 2, ⟨"b"⟩⟩), (3, ⟨1, 3, ⟨"c"⟩⟩)]).removeBack 2).1.storage =
      [(1, ⟨1, 1, ⟨"a"⟩⟩)] := by
  have h := mockLog_remove_semantics
    (MockLog.mk [(1, ⟨1, 1, ⟨"a"⟩⟩), (2, ⟨1, 2, ⟨"b"⟩⟩), (3, ⟨1, 3, ⟨"c"⟩⟩)]) 2
    (by simp [storeSorted])
  refine ⟨h.1.trans (by rfl), h.2.2.1.trans (by rfl)⟩

/-! ### Iterator snapshot semantics

The combined system of one `MockLog` and the iterators it has handed out via
`read`.  In the source, `removeFront`/`removeBack` call `_storage.erase` and
touch nothing else, while each `ContainerIterator` owns the by-value copy of
the map it was constructed with — trimming the log can therefore never alter
what an existing iterator yields. -/

/-- A `MockLog` together with every iterator handed out by `read`. -/
structure MockLogSys where
  storage : LogStore
  iterators : List ContainerIterator
deriving Repr, DecidableEq

/-- `read` on the system: hands out (and records) a fresh iterator over a
snapshot of the current storage. -/
def MockLogSys.doRead (s : MockLogSys) (start : Nat) :
    MockLogSys × ContainerIterator :=
  let it := MockLog.read ⟨s.storage⟩ start
  ({ s with iterators := s.iterators ++ [it] }, it)

/-- A trimming call on the persisted log. -/
inductive TrimOp where
  | front (stop : Nat)
  | back (start : Nat)
deriving Repr, DecidableEq

/-- Apply one `removeFront`/`removeBack` to the system: only `_storage` is
touched (mirroring `_storage.erase` in the source). -/
def MockLogSys.applyTrim (s : MockLogSys) : TrimOp → MockLogSys
  | .front stop => { s with storage := ((MockLog.mk s.storage).removeFront stop).1.storage }
  | .back start => { s with storage := ((MockLog.mk s.storage).removeBack start).1.storage }

/-- Apply a sequence of trimming calls. -/
def MockLogSys.applyTrims (s : MockLogSys) (ops : List TrimOp) : MockLogSys :=
  ops.foldl MockLogSys.applyTrim s

lemma applyTrim_iterators (s : MockLogSys) (op : TrimOp) :
    (s.applyTrim op).iterators = s.iterators := by
  cases op <;> rfl

lemma applyTrims_iterators (s : MockLogSys) (ops : List TrimOp) :
    (s.applyTrims ops).iterators = s.iterators := by
  induction ops generalizing s with
  | nil => rfl
  | cons op rest ih =>
    show ((s.applyTrim op).applyTrims rest).iterators = s.iterators
    rw [ih, applyTrim_iterators]

/-- `C9`: an iterator obtained from `read(start)` yields exactly the entries
of the storage snapshot from `start` on, and after any subsequent sequence
of `removeFront`/`removeBack` calls every previously handed-out iterator
(including this one) still yields exactly the same sequence of entries. -/
theorem mockLog_trim_preserves_iterators (s : MockLogSys) (start : Nat)
    (ops : List TrimOp) :
    (((s.doRead start).1.applyTrims ops).iterators.map ContainerIterator.yieldAll =
      (s.doRead start).1.iterators.map ContainerIterator.yieldAll) ∧
    ((s.doRead start).2.yieldAll =
      (s.storage.dropWhile (fun e => decide (e.1 < start))).map (fun e => e.2)) := by
  exact ⟨by rw [applyTrims_iterators], rfl⟩

/-! ## Follower participant

Modelled from the spec: the `LogFollower` implementation is not part of the
sources (only the `LogParticipantI` interface appears in the
`ReplicatedLog` header).  Per spec 4.3 and the wire-message shapes of
spec 6, `appendEntries` carries the leader term, the previous-log
index/term pair and a batch of entries; the follower rejects — without
mutating any state — a request whose term is below its own, or whose
previous-log index/term does not match its local log tail, and otherwise
truncates any divergent suffix and appends the batch to both the in-memory
and the persisted log. -/

/-- `AppendEntriesRequest{term, prevLogIndex, prevLogTerm, entries[]}`. -/
structure AppendEntriesRequest where
  term : Nat
  prevLogIndex : Nat
  prevLogTerm : Nat
  entries : List LogEntry
deriving Repr, DecidableEq

/-- `AppendEntriesResult{success, term}`. -/
structure AppendEntriesResult where
  success : Bool
  term : Nat
deriving Repr, DecidableEq

/-- Follower-side participant state: current term plus the in-memory and the
durably persisted log. -/
structure FollowerState where
  currentTerm : Nat
  inMemoryLog : List LogEntry
  persistedLog : List LogEntry
deriving Repr, DecidableEq

/-- Term of the local log entry at index `i`, if one is stored. -/
def entryTermAt (log : List LogEntry) (i : Nat) : Option Nat :=
  (log.find? (fun e => e.logIndex == i)).map (fun e => e.logTerm)

/-- Previous-log consistency check: the request's `(prevLogIndex,
prevLogTerm)` must match the local log tail (index `0` denotes the empty
prefix and always matches). -/
def prevLogMatches (s : FollowerState) (req : AppendEntriesRequest) : Bool :=
  req.prevLogIndex == 0 ||
    entryTermAt s.inMemoryLog req.prevLogIndex == some req.prevLogTerm

/-- Drop the local entries beyond the point of divergence. -/
def truncateAfter (i : Nat) (log : List LogEntry) : List LogEntry :=
  log.filter (fun e => decide (e.logIndex ≤ i))

/-- `appendEntries` on a follower, modelled from the spec: reject (without
mutating state) on a stale term; reject (without mutating state) on a
previous-log mismatch, signalling the gap; otherwise drop any divergent
suffix from both logs, append the batch to both, and acknowledge. -/
def FollowerState.appendEntries (s : FollowerState) (req : AppendEntriesRequest) :
    FollowerState × AppendEntriesResult :=
  if req.term < s.currentTerm then
    (s, { success := false, term := s.currentTerm })
  else if prevLogMatches s req = false then
    (s, { success := false, term := s.currentTerm })
  else
    ({ currentTerm := req.term
       inMemoryLog := truncateAfter req.prevLogIndex s.inMemoryLog ++ req.entries
       persistedLog := truncateAfter req.prevLogIndex s.persistedLog ++ req.entries },
     { success := true, term := req.term })

/-- `C6`: a rejected `appendEntries` — whether rejected for a stale term or
for a failed previous-log index/term check — leaves the follower's
in-memory and persisted logs (indeed its whole state) completely unchanged
and reports failure. -/
theorem follower_reject_leaves_log_unchanged (s : FollowerState)
    (req : AppendEntriesRequest)
    (h : req.term < s.currentTerm ∨ prevLogMatches s req = false) :
    (s.appendEntries req).1.inMemoryLog = s.inMemoryLog ∧
    (s.appendEntries req).1.persistedLog = s.persistedLog ∧
    (s.appendEntries req).1 = s ∧
    (s.appendEntries req).2.success = false := by
  rcases h with h | h
  · rw [FollowerState.appendEntries, if_pos h]
    exact ⟨rfl, rfl, rfl, rfl⟩
  · rw [FollowerState.appendEntries]
    by_cases ht : req.term < s.currentTerm
    · rw [if_pos ht]
      exact ⟨rfl, rfl, rfl, rfl⟩
    · rw [if_neg ht, if_pos h]
      exact ⟨rfl, rfl, rfl, rfl⟩

/-- `C6` witness: a request with a stale term and one with a gap are both
rejected without touching a concrete follower's log. -/
theorem follower_reject_leaves_log_unchanged_witness :
    ((FollowerState.mk 3 [⟨2, 1, ⟨"x"⟩⟩] [⟨2, 1, ⟨"x"⟩⟩]).appendEntries
        ⟨2, 1, 2, [⟨2, 2, ⟨"y"⟩⟩]⟩).1 = FollowerState.mk 3 [⟨2, 1, ⟨"x"⟩⟩] [⟨2, 1, ⟨"x"⟩⟩] ∧
    ((FollowerState.mk 3 [⟨2, 1, ⟨"x"⟩⟩] [⟨2, 1, ⟨"x"⟩⟩]).appendEntries
        ⟨4, 7, 2, [⟨4, 8, ⟨"y"⟩⟩]⟩).1 = FollowerState.mk 3 [⟨2, 1, ⟨"x"⟩⟩] [⟨2, 1, ⟨"x"⟩⟩] := by
  refine ⟨?_, ?_⟩
  · exact (follower_reject_leaves_log_unchanged _ _ (Or.inl (by decide))).2.2.1
  · exact (follower_reject_leaves_log_unchanged _ _ (Or.inr (by decide))).2.2.1

/-! ## FakeLogFollower (src/arangod/RestHandler/RestLogHandler.cpp)

The leader talks to remote followers through `FakeLogFollower`, an
`AbstractFollower` whose `appendEntries` posts the request over the network
and chains a `thenValue` continuation on the transport future.  The
continuation receives the `network::Response`; when the transport reports
failure (`result.fail()`) it returns `AppendEntriesResult{false, LogTerm(0)}`,
otherwise it decodes the body's `result` object via
`AppendEntriesResult::fromVelocyPack`.  A future is embedded as either a
delivered value or an escaped exception. -/

/-- The decoded `result` object of a transport-level successful response. -/
structure AppendEntriesResponseBody where
  success : Bool
  term : Nat
deriving Repr, DecidableEq

/-- Outcome of `network::sendRequest` as seen by the continuation:
either a transport failure (`result.fail()`) or a response body. -/
inductive NetworkOutcome where
  | failure (errorCode : Nat)
  | ok (body : AppendEntriesResponseBody)
deriving Repr, DecidableEq

/-- A future's final disposition: a delivered value or an exception that
escaped the continuation. -/
inductive FutureVal (α : Type) where
  | value (a : α)
  | exception (msg : String)
deriving Repr, DecidableEq

/-- `AppendEntriesResult::fromVelocyPack` on the response's `result` slice. -/
def AppendEntriesResult.fromBody (b : AppendEntriesResponseBody) : AppendEntriesResult :=
  { success := b.success, term := b.term }

/-- The `thenValue` continuation of `FakeLogFollower::appendEntries`:
`if (result.fail()) return AppendEntriesResult{false, LogTerm(0)};`
else decode the body. -/
def fakeFollowerContinuation : NetworkOutcome → AppendEntriesResult
  | .failure _ => { success := false, term := 0 }
  | .ok body => AppendEntriesResult.fromBody body

/-- `FakeLogFollower::appendEntries` composed with the transport future: the
continuation returns normally on every outcome, so the chained future always
carries a value. -/
def fakeFollowerAppendEntries (outcome : NetworkOutcome) :
    FutureVal AppendEntriesResult :=
  FutureVal.value (fakeFollowerContinuation outcome)

/-- `C8`: for every transport outcome of an `appendEntries` the leader issues
through the `AbstractFollower` contract, the future resolves with a value —
no exception escapes into the replication loop — and a network/transport
failure is surfaced through the future as the error value
`AppendEntriesResult{success = false, term = 0}`. -/
theorem fakeFollower_network_failure_in_future (o : NetworkOutcome) (err : Nat) :
    (∃ r, fakeFollowerAppendEntries o = FutureVal.value r) ∧
    (∀ msg, fakeFollowerAppendEntries o ≠ FutureVal.exception msg) ∧
    fakeFollowerAppendEntries (NetworkOutcome.failure err) =
      FutureVal.value { success := false, term := 0 } := by
  refine ⟨⟨fakeFollowerContinuation o, rfl⟩, ?_, rfl⟩
  intro msg h
  cases h

/-- `C8` witness: a concrete transport failure (error code 3) resolves the
composed future with the in-band error value, not an exception. -/
theorem fakeFollower_network_failure_in_future_witness :
    fakeFollowerAppendEntries (NetworkOutcome.failure 3) =
      FutureVal.value { success := false, term := 0 } :=
  (fakeFollower_network_failure_in_future (NetworkOutcome.failure 3) 3).2.2

/-! ## Leader participant

Modelled from the spec: the `LogLeader` implementation is not part of the
sources (the `ReplicatedLog` header only declares the `LogParticipantI`
interface with `waitFor`, the `WaitForQueue` multimap and `resign`).
Per spec 4.2 and 5: `insert` appends to the in-memory log and returns the
new index immediately; a `waitFor(index)` promise is queued in the
index-ordered multimap; an index is committed once at least `writeConcern`
participants (the leader included) acknowledge it; on commit-index advance
every pending promise with target `≤ commitIndex` resolves, in index
order, with a `QuorumData{index, term, acknowledged-participant set}`;
`resign` fails every in-flight waiter with a "participant resigned" error
and hands the `LogCore` back. -/

/-- `QuorumData`: committed index/term plus the acknowledging set. -/
structure QuorumData where
  index : Nat
  term : Nat
  quorum : List String
deriving Repr, DecidableEq

/-- `LogCore`: single-owner handle to the durable log. -/
structure LogCore where
  logId : Nat
deriving Repr, DecidableEq

/-- Leader participant state.  `log` is the payload sequence (entry `i` has
log index `i + 1`), `followerAcks` the per-follower last-acknowledged
index, `waitQueue` the pending `waitFor` targets in multimap (index) order,
and `resolutions` the trace of promise resolutions `(target, quorum)` in
the order they fired. -/
structure LeaderState where
  term : Nat
  leaderId : String
  followers : List String
  writeConcern : Nat
  log : List String
  commitIndex : Nat
  followerAcks : List (String × Nat)
  waitQueue : List Nat
  resolutions : List (Nat × QuorumData)
  core : Option LogCore
deriving Repr, DecidableEq

/-- All participants: the leader itself plus its followers. -/
def participants (s : LeaderState) : List String := s.leaderId :: s.followers

/-- Last acknowledged index of a follower (0 before the first response). -/
def lookupAck (acks : List (String × Nat)) (p : String) : Nat :=
  match acks.find? (fun e => e.1 == p) with
  | some e => e.2
  | none => 0

/-- Last index a participant has acknowledged; the leader has everything it
has appended. -/
def ackOf (s : LeaderState) (p : String) : Nat :=
  if p == s.leaderId then s.log.length else lookupAck s.followerAcks p

/-- Number of participants whose acknowledged index reaches `i`. -/
def countAcked (s : LeaderState) (i : Nat) : Nat :=
  (participants s).countP (fun p => decide (i ≤ ackOf s p))

/-- The participant set that satisfies index `i`. -/
def quorumFor (s : LeaderState) (i : Nat) : List String :=
  (participants s).filter (fun p => decide (i ≤ ackOf s p))

/-- Commit rule: the highest index acknowledged by at least `writeConcern`
participants; the commit index never regresses. -/
def computeCommitIndex (s : LeaderState) : Nat :=
  ((List.range (s.log.length + 1)).filter
      (fun i => decide (s.writeConcern ≤ countAcked s i))).foldl max s.commitIndex

/-- Advance the commit index and resolve, in index order, every pending
`waitFor` promise whose target is now committed, each with the
`QuorumData` of the new commit index. -/
def checkCommit (s : LeaderState) : LeaderState :=
  { s with
    commitIndex := computeCommitIndex s
    waitQueue := s.waitQueue.filter (fun t => decide (computeCommitIndex s < t))
    resolutions := s.resolutions ++
      (s.waitQueue.filter (fun t => decide (t ≤ computeCommitIndex s))).map
        (fun t => (t, { index := computeCommitIndex s, term := s.term,
                        quorum := quorumFor s (computeCommitIndex s) })) }

/-- `insert(payload)`: append to the in-memory log and return the new index
immediately (replication is asynchronous). -/
def LeaderState.insert (s : LeaderState) (payload : String) : LeaderState × Nat :=
  ({ s with log := s.log ++ [payload] }, s.log.length + 1)

/-- `waitFor(index)`: queue a promise in the index-ordered multimap. -/
def LeaderState.waitFor (s : LeaderState) (idx : Nat) : LeaderState :=
  { s with waitQueue := s.waitQueue.orderedInsert (· ≤ ·) idx }

/-- Record a follower's acknowledgement (acknowledged indices are
monotone). -/
def updateAck (acks : List (String × Nat)) (f : String) (n : Nat) :
    List (String × Nat) :=
  match acks with
  | [] => [(f, n)]
  | e :: rest => if e.1 == f then (e.1, max e.2 n) :: rest else e :: updateAck rest f n

/-- One externally triggered leader transition: an insert (whose caller then
waits on the returned index, as the log API is used), a follower
acknowledgement arriving (the no-failure environment), or an asynchronous
replication step.  Each transition ends with the commit check. -/
inductive LeaderOp where
  | insert (payload : String)
  | ack (follower : String) (idx : Nat)
  | asyncStep
deriving Repr, DecidableEq

/-- Apply one leader transition. -/
def applyLeaderOp (s : LeaderState) : LeaderOp → LeaderState
  | .insert p =>
    let r := s.insert p
    checkCommit (r.1.waitFor r.2)
  | .ack f n => checkCommit { s with followerAcks := updateAck s.followerAcks f n }
  | .asyncStep => checkCommit s

/-- A fresh leader for the given term/configuration, owning the core. -/
def initLeader (leaderId : String) (followers : List String)
    (wc term coreId : Nat) : LeaderState :=
  { term := term, leaderId := leaderId, followers := followers,
    writeConcern := wc, log := [], commitIndex := 0, followerAcks := [],
    waitQueue := [], resolutions := [], core := some ⟨coreId⟩ }

/-- Run a sequence of leader transitions. -/
def runLeader (s : LeaderState) (ops : List LeaderOp) : LeaderState :=
  ops.foldl applyLeaderOp s

lemma le_foldl_max (a : Nat) (l : List Nat) : a ≤ l.foldl max a := by
  induction l generalizing a with
  | nil => exact Nat.le_refl a
  | cons x xs ih =>
    show a ≤ xs.foldl max (max a x)
    exact le_trans (Nat.le_max_left a x) (ih (max a x))

lemma foldl_max_le {b : Nat} (a : Nat) (l : List Nat) (ha : a ≤ b)
    (hl : ∀ x ∈ l, x ≤ b) : l.foldl max a ≤ b := by
  induction l generalizing a with
  | nil => exact ha
  | cons x xs ih =>
    show xs.foldl max (max a x) ≤ b
    exact ih (max a x) (max_le ha (hl x (List.mem_cons_self x xs)))
      (fun y hy => hl y (List.mem_cons_of_mem x hy))

lemma foldl_max_eq_or_mem (a : Nat) (l : List Nat) :
    l.foldl max a = a ∨ l.foldl max a ∈ l := by
  induction l generalizing a with
  | nil => exact Or.inl rfl
  | cons x xs ih =>
    show xs.foldl max (max a x) = a ∨ xs.foldl max (max a x) ∈ x :: xs
    rcases ih (max a x) with h | h
    · rcases max_choice a x with hm | hm
      · exact Or.inl (h.trans hm)
      · exact Or.inr (by rw [h, hm]; exact List.mem_cons_self x xs)
    · exact Or.inr (List.mem_cons_of_mem x h)

lemma commitIndex_le_computeCommitIndex (s : LeaderState) :
    s.commitIndex ≤ computeCommitIndex s := le_foldl_max _ _

lemma computeCommitIndex_le_log_length (s : LeaderState)
    (h : s.commitIndex ≤ s.log.length) : computeCommitIndex s ≤ s.log.length := by
  refine foldl_max_le _ _ h ?_
  intro x hx
  have hx1 := (List.mem_filter.mp hx).1
  have hx2 := List.mem_range.mp hx1
  omega

lemma writeConcern_le_countAcked_of_lt (s : LeaderState)
    (h : s.commitIndex < computeCommitIndex s) :
    s.writeConcern ≤ countAcked s (computeCommitIndex s) := by
  have h2 := foldl_max_eq_or_mem s.commitIndex
    ((List.range (s.log.length + 1)).filter
      (fun i => decide (s.writeConcern ≤ countAcked s i)))
  rw [computeCommitIndex] at h ⊢
  rcases h2 with he | hm
  · omega
  · have := (List.mem_filter.mp hm).2
    simpa using this

lemma quorumFor_length (s : LeaderState) (i : Nat) :
    (quorumFor s i).length = countAcked s i := by
  rw [quorumFor, countAcked, List.countP_eq_length_filter]

/-- Inductive invariant of the leader's promise machinery: the wait queue is
in multimap (index) order and strictly above the commit index, the commit
index never exceeds the log, the resolution trace is in non-decreasing
target order, each resolved target was committed, and every resolved
quorum meets the write concern. -/
structure LeaderInv (s : LeaderState) : Prop where
  sortedQueue : s.waitQueue.Pairwise (· ≤ ·)
  queueAboveCommit : ∀ t ∈ s.waitQueue, s.commitIndex < t
  commitLeLen : s.commitIndex ≤ s.log.length
  sortedRes : (s.resolutions.map Prod.fst).Pairwise (· ≤ ·)
  resLeCommit : ∀ e ∈ s.resolutions, e.1 ≤ s.commitIndex
  resQuorum : ∀ e ∈ s.resolutions, s.writeConcern ≤ e.2.quorum.length

lemma checkCommit_inv {s : LeaderState} (h : LeaderInv s) :
    LeaderInv (checkCommit s) := by
  have hcLe := commitIndex_le_computeCommitIndex s
  have hlen := computeCommitIndex_le_log_length s h.commitLeLen
  refine ⟨?_, ?_, hlen, ?_, ?_, ?_⟩
  · exact List.Pairwise.sublist (List.filter_sublist _) h.sortedQueue
  · intro t ht
    show computeCommitIndex s < t
    have := (List.mem_filter.mp ht).2
    simpa using this
  · rw [checkCommit]
    simp only [List.map_append, List.map_map]
    rw [List.pairwise_append]
    refine ⟨h.sortedRes, ?_, ?_⟩
    · have hfun : (Prod.fst ∘ fun t : Nat =>
          (t, QuorumData.mk (computeCommitIndex s) s.term
            (quorumFor s (computeCommitIndex s)))) = id := rfl
      rw [hfun, List.map_id]
      exact List.Pairwise.sublist (List.filter_sublist _) h.sortedQueue
    · intro a ha b hb
      obtain ⟨ea, hea, rfl⟩ := List.mem_map.mp ha
      have ha1 := h.resLeCommit ea hea
      have hfun : (Prod.fst ∘ fun t : Nat =>
          (t, QuorumData.mk (computeCommitIndex s) s.term
            (quorumFor s (computeCommitIndex s)))) = id := rfl
      rw [hfun, List.map_id] at hb
      have hb1 := h.queueAboveCommit b (List.mem_of_mem_filter hb)
      omega
  · intro e he
    rcases List.mem_append.mp he with ho | hn
    · exact le_trans (h.resLeCommit e ho) hcLe
    · obtain ⟨t, htf, rfl⟩ := List.mem_map.mp hn
      have := (List.mem_filter.mp htf).2
      simpa using this
  · intro e he
    rcases List.mem_append.mp he with ho | hn
    · exact h.resQuorum e ho
    · obtain ⟨t, htf, rfl⟩ := List.mem_map.mp hn
      have ht1 := (List.mem_filter.mp htf).2
      have ht2 := h.queueAboveCommit t (List.mem_of_mem_filter htf)
      have hlt : s.commitIndex < computeCommitIndex s := by
        have := of_decide_eq_true ht1
        omega
      have hq := writeConcern_le_countAcked_of_lt s hlt
      show s.writeConcern ≤ (quorumFor s (computeCommitIndex s)).length
      rw [quorumFor_length]
      exact hq

lemma insert_waitFor_inv {s : LeaderState} (h : LeaderInv s) (p : String) :
    LeaderInv (((s.insert p).1).waitFor ((s.insert p).2)) := by
  refine ⟨?_, ?_, ?_, h.sortedRes, h.resLeCommit, h.resQuorum⟩
  · exact List.Sorted.orderedInsert _ _ h.sortedQueue
  · intro t ht
    rcases (List.mem_orderedInsert (· ≤ ·)).mp ht with rfl | ht'
    · show s.commitIndex < s.log.length + 1
      have := h.commitLeLen
      omega
    · exact h.queueAboveCommit t ht'
  · show s.commitIndex ≤ (s.log ++ [p]).length
    rw [List.length_append]
    have := h.commitLeLen
    simp only [List.length_cons, List.length_nil]
    omega

lemma applyLeaderOp_inv {s : LeaderState} (h : LeaderInv s) (op : LeaderOp) :
    LeaderInv (applyLeaderOp s op) := by
  cases op with
  | insert p => exact checkCommit_inv (insert_waitFor_inv h p)
  | ack f n =>
    refine checkCommit_inv ?_
    exact ⟨h.sortedQueue, h.queueAboveCommit, h.commitLeLen, h.sortedRes,
      h.resLeCommit, h.resQuorum⟩
  | asyncStep => exact checkCommit_inv h

lemma runLeader_inv {s : LeaderState} (h : LeaderInv s) (ops : List LeaderOp) :
    LeaderInv (runLeader s ops) := by
  induction ops generalizing s with
  | nil => exact h
  | cons op rest ih => exact ih (applyLeaderOp_inv h op)

lemma initLeader_inv (leaderId : String) (followers : List String)
    (wc term coreId : Nat) :
    LeaderInv (initLeader leaderId followers wc term coreId) := by
  refine ⟨List.Pairwise.nil, ?_, Nat.le_refl 0, List.Pairwise.nil, ?_, ?_⟩ <;>
    intro t ht <;> cases ht

lemma applyLeaderOp_writeConcern (s : LeaderState) (op : LeaderOp) :
    (applyLeaderOp s op).writeConcern = s.writeConcern := by
  cases op <;> rfl

lemma runLeader_writeConcern (s : LeaderState) (ops : List LeaderOp) :
    (runLeader s ops).writeConcern = s.writeConcern := by
  induction ops generalizing s with
  | nil => rfl
  | cons op rest ih =>
    show (runLeader (applyLeaderOp s op) rest).writeConcern = s.writeConcern
    rw [ih, applyLeaderOp_writeConcern]

/-- `C2`: for every sequence of leader operations — inserts (each of whose
callers waits on the returned index), follower acknowledgements and
asynchronous replication steps, with no follower failures — the `waitFor`
promises resolve in non-decreasing target-index order, and every
`QuorumData` a promise resolves with carries a participant set of size at
least the configured write concern. -/
theorem leader_waitFor_index_order_and_quorum (leaderId : String)
    (followers : List String) (wc term coreId : Nat) (ops : List LeaderOp) :
    (((runLeader (initLeader leaderId followers wc term coreId) ops).resolutions.map
        Prod.fst).Pairwise (· ≤ ·)) ∧
    ∀ e ∈ (runLeader (initLeader leaderId followers wc term coreId) ops).resolutions,
      wc ≤ e.2.quorum.length := by
  have h := runLeader_inv (initLeader_inv leaderId followers wc term coreId) ops
  refine ⟨h.sortedRes, fun e he => ?_⟩
  have := h.resQuorum e he
  rwa [runLeader_writeConcern] at this

/-- `C2` witness: leader `L` with followers `F1`, `F2` and write concern 2;
after one insert and `F1`'s acknowledgement the promise for index 1 has
resolved with the two-participant quorum `{L, F1}`. -/
theorem leader_waitFor_index_order_and_quorum_witness :
    2 ≤ (QuorumData.mk 1 1 ["L", "F1"]).quorum.length :=
  (leader_waitFor_index_order_and_quorum "L" ["F1", "F2"] 2 1 9
      [.insert "a", .ack "F1" 1]).2
    (1, QuorumData.mk 1 1 ["L", "F1"]) (by decide)

/-! ### Resignation -/

/-- The definite error a resigning participant delivers to each pending
`waitFor` promise. -/
def logResignedError : String := "participant resigned"

/-- Walk the pending wait queue and complete every promise with the
"log resigned" error. -/
def drainResignedQueue : List Nat → List (Nat × String)
  | [] => []
  | t :: ts => (t, logResignedError) :: drainResignedQueue ts

/-- `resign()`: hand the `LogCore` back to the caller, complete every
pending promise with the resignation error, and leave the participant an
empty shell holding neither core nor waiters. -/
def LeaderState.resign (s : LeaderState) :
    Option LogCore × List (Nat × String) × LeaderState :=
  (s.core, drainResignedQueue s.waitQueue,
    { s with waitQueue := [], core := none })

lemma drainResignedQueue_length (l : List Nat) :
    (drainResignedQueue l).length = l.length := by
  induction l with
  | nil => rfl
  | cons t ts ih => simp [drainResignedQueue, ih]

lemma mem_drainResignedQueue {t : Nat} {l : List Nat} (h : t ∈ l) :
    (t, logResignedError) ∈ drainResignedQueue l := by
  induction l with
  | nil => cases h
  | cons x xs ih =>
    rcases List.mem_cons.mp h with rfl | h'
    · exact List.mem_cons_self _ _
    · exact List.mem_cons_of_mem _ (ih h')

lemma drainResignedQueue_all_error {e : Nat × String} {l : List Nat}
    (h : e ∈ drainResignedQueue l) : e.2 = logResignedError := by
  induction l with
  | nil => cases h
  | cons x xs ih =>
    rcases List.mem_cons.mp h with rfl | h'
    · rfl
    · exact ih h'

/-- `C7`: `resign()` on a leader completes every pending `waitFor` promise
with the definite "log resigned" error — exactly one completion per pending
promise, each carrying that error, with no promise left queued — and
returns ownership of the `LogCore` to the caller. -/
theorem leader_resign_fails_all_waiters (s : LeaderState) :
    s.resign.2.2.waitQueue = [] ∧
    s.resign.2.1.length = s.waitQueue.length ∧
    (∀ t ∈ s.waitQueue, (t, logResignedError) ∈ s.resign.2.1) ∧
    (∀ e ∈ s.resign.2.1, e.2 = logResignedError) ∧
    s.resign.1 = s.core ∧
    s.resign.2.2.core = none := by
  refine ⟨rfl, drainResignedQueue_length s.waitQueue, ?_, ?_, rfl, rfl⟩
  · intro t ht
    exact mem_drainResignedQueue ht
  · intro e he
    exact drainResignedQueue_all_error he

/-- `C7` witness: a leader with one pending `waitFor(5)` — resignation
completes it with the resignation error and hands back the core. -/
theorem leader_resign_fails_all_waiters_witness :
    (5, logResignedError) ∈
      (LeaderState.mk 1 "L" ["F1"] 2 ["a"] 0 [] [5] [] (some ⟨9⟩)).resign.2.1 ∧
    (LeaderState.mk 1 "L" ["F1"] 2 ["a"] 0 [] [5] [] (some ⟨9⟩)).resign.1 = some ⟨9⟩ := by
  refine ⟨?_, ?_⟩
  · exact (leader_resign_fails_all_waiters
      (LeaderState.mk 1 "L" ["F1"] 2 ["a"] 0 [] [5] [] (some ⟨9⟩))).2.2.1 5 (by decide)
  · exact (leader_resign_fails_all_waiters
      (LeaderState.mk 1 "L" ["F1"] 2 ["a"] 0 [] [5] [] (some ⟨9⟩))).2.2.2.2.1

/-! ## Buffered-update / blocker engine (RocksDBMetaCollection)

Modelled from the spec: the member-function bodies of
`RocksDBMetaCollection` are not part of the sources (src/ has only the
class declaration).  Per the header's documentation of `bufferUpdates` and
spec 4.6: writers buffer inserts/removals/truncations keyed by the storage
sequence number at which they became visible; `placeRevisionTreeBlocker`
registers a transaction blocker at the current sequence and
`removeRevisionTreeBlocker` removes it; a buffered update at sequence `S`
may be applied only once no blocker with sequence `≤ S` remains, so
`needToPersistRevisionTree(maxCommitSeq)` and `applyUpdates(commitSeq)`
consider exactly the buffered mutations whose sequence is both within the
requested bound and below every registered blocker. -/

/-- Buffered-update state of one collection: registered transaction
blockers `(transactionId, sequence)`, the three buffers keyed by commit
sequence, and the revision tree the safe prefix has been applied to. -/
structure MetaCollectionState where
  blockers : List (Nat × Nat)
  insertBuffers : List (Nat × List Nat)
  removalBuffers : List (Nat × List Nat)
  truncateBuffer : List Nat
  tree : RevisionTree
deriving Repr, DecidableEq

/-- `placeRevisionTreeBlocker(transactionId)`: register a blocker at the
sequence number current when the transaction started. -/
def placeRevisionTreeBlocker (s : MetaCollectionState) (trxId seq : Nat) :
    MetaCollectionState :=
  { s with blockers := s.blockers ++ [(trxId, seq)] }

/-- `removeRevisionTreeBlocker(transactionId)`: drop that transaction's
blocker. -/
def removeRevisionTreeBlocker (s : MetaCollectionState) (trxId : Nat) :
    MetaCollectionState :=
  { s with blockers := s.blockers.filter (fun b => !(b.1 == trxId)) }

/-- `bufferUpdates(seq, inserts, removals)`: buffer the revisions committed
at `seq` until all earlier blockers are gone. -/
def bufferUpdates (s : MetaCollectionState) (seq : Nat)
    (inserts removals : List Nat) : MetaCollectionState :=
  { s with insertBuffers := s.insertBuffers ++ [(seq, inserts)]
           removalBuffers := s.removalBuffers ++ [(seq, removals)] }

/-- `bufferTruncate(seq)`: buffer a truncation marker; always succeeds. -/
def bufferTruncate (s : MetaCollectionState) (seq : Nat) :
    MetaCollectionState × Result :=
  ({ s with truncateBuffer := s.truncateBuffer ++ [seq] }, ⟨0⟩)

/-- Lowest sequence number of any still-registered blocker. -/
def minBlockerSeq (s : MetaCollectionState) : Option Nat :=
  match s.blockers.map (fun b => b.2) with
  | [] => none
  | x :: xs => some (xs.foldl min x)

/-- Whether a buffered update at `seq` is no longer gated by any blocker:
it is safe only once no blocker with sequence `≤ seq` remains. -/
def seqSafe (s : MetaCollectionState) (seq : Nat) : Bool :=
  match minBlockerSeq s with
  | none => true
  | some b => decide (seq < b)

/-- Whether a buffered update at `seq` is applied by a pass bounded by
`commitSeq`: within the bound and past every blocker. -/
def applicable (s : MetaCollectionState) (commitSeq seq : Nat) : Bool :=
  decide (seq ≤ commitSeq) && seqSafe s seq

/-- `needToPersistRevisionTree(maxCommitSeq)`: whether any buffered update
up to `maxCommitSeq` can now be applied (and would hence make the persisted
tree stale). -/
def needToPersistRevisionTree (s : MetaCollectionState) (maxCommitSeq : Nat) : Bool :=
  s.insertBuffers.any (fun p => applicable s maxCommitSeq p.1) ||
    s.removalBuffers.any (fun p => applicable s maxCommitSeq p.1) ||
    s.truncateBuffer.any (fun q => applicable s maxCommitSeq q)

/-- `applyUpdates(commitSeq)`: apply exactly the applicable buffered
truncation/insert/removal batches to the tree and drop them from the
buffers; gated updates stay buffered. -/
def applyUpdates (s : MetaCollectionState) (commitSeq : Nat) :
    MetaCollectionState :=
  let base := if s.truncateBuffer.any (fun q => applicable s commitSeq q)
    then RevisionTree.empty else s.tree
  let t1 := (s.insertBuffers.filter (fun p => applicable s commitSeq p.1)).foldl
    (fun t p => t.insertList p.2) base
  let t2 := (s.removalBuffers.filter (fun p => applicable s commitSeq p.1)).foldl
    (fun t p => t.removeList p.2) t1
  { s with
    tree := t2
    insertBuffers := s.insertBuffers.filter (fun p => !applicable s commitSeq p.1)
    removalBuffers := s.removalBuffers.filter (fun p => !applicable s commitSeq p.1)
    truncateBuffer := s.truncateBuffer.filter (fun q => !applicable s commitSeq q) }

lemma foldl_min_le (a : Nat) (l : List Nat) : l.foldl min a ≤ a := by
  induction l generalizing a with
  | nil => exact Nat.le_refl a
  | cons x xs ih =>
    show xs.foldl min (min a x) ≤ a
    exact le_trans (ih (min a x)) (Nat.min_le_left a x)

lemma foldl_min_le_of_mem {x : Nat} (a : Nat) (l : List Nat) (h : x ∈ l) :
    l.foldl min a ≤ x := by
  induction l generalizing a with
  | nil => cases h
  | cons y ys ih =>
    show ys.foldl min (min a y) ≤ x
    rcases List.mem_cons.mp h with rfl | h'
    · exact le_trans (foldl_min_le (min a x) ys) (Nat.min_le_right a x)
    · exact ih (min a y) h'

lemma minBlockerSeq_le {s : MetaCollectionState} {trxId B : Nat}
    (hb : (trxId, B) ∈ s.blockers) :
    ∃ m, minBlockerSeq s = some m ∧ m ≤ B := by
  have hmem : B ∈ s.blockers.map (fun b => b.2) :=
    List.mem_map.mpr ⟨(trxId, B), hb, rfl⟩
  rw [minBlockerSeq]
  cases hml : s.blockers.map (fun b => b.2) with
  | nil => rw [hml] at hmem; cases hmem
  | cons x xs =>
    rw [hml] at hmem
    refine ⟨xs.foldl min x, rfl, ?_⟩
    rcases List.mem_cons.mp hmem with rfl | h'
    · exact foldl_min_le B xs
    · exact foldl_min_le_of_mem x xs h'

lemma seqSafe_false_of_blocked {s : MetaCollectionState} {trxId B seq : Nat}
    (hb : (trxId, B) ∈ s.blockers) (h : B ≤ seq) : seqSafe s seq = false := by
  obtain ⟨m, hm, hmB⟩ := minBlockerSeq_le hb
  rw [seqSafe, hm]
  simp only [decide_eq_false_iff_not]
  omega

lemma applicable_false_of_blocked {s : MetaCollectionState} {trxId B seq : Nat}
    (c : Nat) (hb : (trxId, B) ∈ s.blockers) (h : B ≤ seq) :
    applicable s c seq = false := by
  rw [applicable, seqSafe_false_of_blocked hb h, Bool.and_false]

/-- `C1`: while a blocker placed by `placeRevisionTreeBlocker` with sequence
`B` is still registered, no buffered insert, removal or truncation with
sequence `≥ B` is applied to the revision tree by `applyUpdates` (each such
batch stays buffered and, when all buffered updates are so gated, the tree
is untouched), and `needToPersistRevisionTree(maxCommitSeq)` returns
`false` whenever every buffered update is gated by that blocker. -/
theorem blocker_gates_buffered_updates (s : MetaCollectionState)
    (trxId B maxCommitSeq commitSeq : Nat) (hb : (trxId, B) ∈ s.blockers) :
    (∀ p ∈ s.insertBuffers, B ≤ p.1 → p ∈ (applyUpdates s commitSeq).insertBuffers) ∧
    (∀ p ∈ s.removalBuffers, B ≤ p.1 → p ∈ (applyUpdates s commitSeq).removalBuffers) ∧
    (∀ q ∈ s.truncateBuffer, B ≤ q → q ∈ (applyUpdates s commitSeq).truncateBuffer) ∧
    ((∀ p ∈ s.insertBuffers, B ≤ p.1) → (∀ p ∈ s.removalBuffers, B ≤ p.1) →
      (∀ q ∈ s.truncateBuffer, B ≤ q) →
      needToPersistRevisionTree s maxCommitSeq = false ∧
      (applyUpdates s commitSeq).tree = s.tree) := by
  refine ⟨?_, ?_, ?_, ?_⟩
  · intro p hp hge
    refine List.mem_filter.mpr ⟨hp, ?_⟩
    rw [applicable_false_of_blocked commitSeq hb hge]
    rfl
  · intro p hp hge
    refine List.mem_filter.mpr ⟨hp, ?_⟩
    rw [applicable_false_of_blocked commitSeq hb hge]
    rfl
  · intro q hq hge
    refine List.mem_filter.mpr ⟨hq, ?_⟩
    rw [applicable_false_of_blocked commitSeq hb hge]
    rfl
  · intro hins hrem htrunc
    have hinsF : ∀ c, s.insertBuffers.filter (fun p => applicable s c p.1) = [] :=
      fun c => List.filter_eq_nil_iff.mpr fun p hp => by
        rw [applicable_false_of_blocked c hb (hins p hp)]; exact Bool.false_ne_true
    have hremF : ∀ c, s.removalBuffers.filter (fun p => applicable s c p.1) = [] :=
      fun c => List.filter_eq_nil_iff.mpr fun p hp => by
        rw [applicable_false_of_blocked c hb (hrem p hp)]; exact Bool.false_ne_true
    have htrF : ∀ c, s.truncateBuffer.any (fun q => applicable s c q) = false :=
      fun c => List.any_eq_false.mpr fun q hq => by
        rw [applicable_false_of_blocked c hb (htrunc q hq)]; exact Bool.false_ne_true
    constructor
    · rw [needToPersistRevisionTree]
      have h1 : s.insertBuffers.any (fun p => applicable s maxCommitSeq p.1) = false :=
        List.any_eq_false.mpr fun p hp => by
          rw [applicable_false_of_blocked maxCommitSeq hb (hins p hp)]
          exact Bool.false_ne_true
      have h2 : s.removalBuffers.any (fun p => applicable s maxCommitSeq p.1) = false :=
        List.any_eq_false.mpr fun p hp => by
          rw [applicable_false_of_blocked maxCommitSeq hb (hrem p hp)]
          exact Bool.false_ne_true
      rw [h1, h2, htrF maxCommitSeq]
      rfl
    · show ((s.removalBuffers.filter (fun p => applicable s commitSeq p.1)).foldl
          (fun t p => t.removeList p.2)
          ((s.insertBuffers.filter (fun p => applicable s commitSeq p.1)).foldl
            (fun t p => t.insertList p.2)
            (if s.truncateBuffer.any (fun q => applicable s commitSeq q)
              then RevisionTree.empty else s.tree))) = s.tree
      rw [hinsF commitSeq, hremF commitSeq, htrF commitSeq]
      rfl

/-- `C1` witness: blocker at sequence 5 still registered; the buffered
update at sequence 10 stays buffered, the tree is untouched, and
`needToPersistRevisionTree` reports nothing to persist. -/
theorem blocker_gates_buffered_updates_witness :
    needToPersistRevisionTree
      (MetaCollectionState.mk [(7, 5)] [(10, [1])] [(12, [2])] [11] RevisionTree.empty)
      100 = false ∧
    (10, [1]) ∈ (applyUpdates
      (MetaCollectionState.mk [(7, 5)] [(10, [1])] [(12, [2])] [11] RevisionTree.empty)
      100).insertBuffers := by
  have h := blocker_gates_buffered_updates
    (MetaCollectionState.mk [(7, 5)] [(10, [1])] [(12, [2])] [11] RevisionTree.empty)
    7 5 100 100 (by decide)
  refine ⟨?_, ?_⟩
  · exact (h.2.2.2 (by decide) (by decide) (by decide)).1
  · exact h.1 (10, [1]) (by decide) (by decide)

end ArangoVerify
